import Mathlib

/-!
Verification of the ShareSlides deck catalog loader
(`getAllDecks` / `getDeckBySlug` / `getDeckByShortId` / `getAllTags` and the
`import.meta.glob`-driven data layer it is built on, together with the deck
data model of `src/types/deck.ts`).

The loader is a pure function of two already-parsed inputs:
the deck modules (a path-keyed collection of deck JSON records) and a single
legacy-stats JSON object.  We embed both as explicit parameters.

Modelling notes:
* `uploadedAt` is stored as an ISO-8601 string and consumed only through
  `new Date(s).getTime()`; we embed the field as its parsed epoch value
  (`Option Int`).  Malformed timestamps are outside every property considered
  here (the spec leaves them as an open question).
* `Array.prototype.sort` with a comparator is specified (ES2019+) to be a
  stable sort; for a comparator inducing a total preorder, the stable sorted
  output is unique, so we embed the sort as insertion sort, which is stable.
* JavaScript objects (the legacy-stats JSON object) are embedded as
  association lists with first-match lookup; field presence on a looked-up
  value (the `'views' in stats` duck-typing check) is embedded with `Option`
  fields.
* The default `.sort()` on the tag strings compares strings lexicographically;
  we use the lexicographic order on `String`.
-/

namespace ShareSlides

/-- Model of `DeckCategory` from `src/types/deck.ts`: `'Organic' | 'AI'`. -/
inductive DeckCategory where
  | organic
  | ai
deriving DecidableEq

/-- Model of `DeckAssets` from `src/types/deck.ts`. -/
structure DeckAssets where
  pdf : String := ""
  cover : String := ""
  pptx : Option String := none
deriving DecidableEq

/-- Model of `DeckSource` from `src/types/deck.ts`. -/
structure DeckSource where
  slideshareUrl : Option String := none
  downloadUrl : Option String := none
deriving DecidableEq

/-- A value stored in the legacy-stats JSON object: either a stats entry
(`LegacyStats`: `likes`, `views`, `downloads`, `privacy?`) or the `_meta`
value (`{ capturedAt?: string }`), or the merged `LegacyStatsWithMeta`.
`Option` marks presence of the field on the underlying JSON object, which is
what the `'views' in stats` check in `getAllDecks` tests. -/
structure StatsVal where
  likes : Option Int := none
  views : Option Int := none
  downloads : Option Int := none
  privacy : Option String := none
  capturedAt : Option String := none
deriving DecidableEq

/-- Model of `Deck` from `src/types/deck.ts`.  `uploadedAt` is embedded as its parsed
timestamp (`new Date(s).getTime()`), see the module docstring.  Field
defaults are embedding convenience only. -/
structure Deck where
  slug : String := ""
  shortId : Option Int := none
  title : String := ""
  description : Option String := none
  tags : List String := []
  language : String := "en"
  category : Option DeckCategory := none
  assets : DeckAssets := {}
  source : Option DeckSource := none
  legacyStats : Option StatsVal := none
  uploadedAt : Option Int := none
deriving DecidableEq

/-- The parsed `legacy-stats.json` object (`LegacyStatsFile`), embedded as an
association list from keys to values; `_meta`, when present, is one of the
keys, exactly as in the JSON object. -/
abbrev LegacyStatsFile := List (String × StatsVal)

/-- Property access `legacyStatsData[k]` on the legacy-stats object. -/
def lookupStats (t : LegacyStatsFile) (k : String) : Option StatsVal :=
  (t.find? (fun e => e.1 == k)).map (fun e => e.2)

/-- Model of `const legacyStatsMeta = legacyStatsData._meta`. -/
def legacyStatsMeta (t : LegacyStatsFile) : Option StatsVal :=
  lookupStats t "_meta"

/-- Model of `getDeckIdFromPath`: extract the filename stem via
`path.match(/\/([^/]+)\.json$/)`, returning `''` on no match.  The regex can
only match at the last `/` (the stem may not contain `/` and the match is
anchored at the end), requires at least one character in the stem, and is
case-sensitive. -/
def getDeckIdFromPath (path : String) : String :=
  if (path.splitOn "/").length < 2 then ""
  else
    let last := (path.splitOn "/").getLastD ""
    if last.endsWith ".json" then
      if 5 < last.length then last.dropRight 5 else ""
    else ""

/-- The body of the `Object.entries(deckModules).map(([path, deck]) => ...)`
step of `getAllDecks`: resolve the deck ID (`deck.slug ||
getDeckIdFromPath(path)`; the JS `||` takes the fallback exactly when `slug`
is the empty string), look it up in the legacy-stats object, and when the
value is stats-shaped (`'views' in stats`; `typeof stats === 'object'` always
holds for a JSON value) return `{...deck, legacyStats: {...stats, capturedAt:
legacyStatsMeta?.capturedAt}}`, otherwise the deck unchanged. -/
def enrichDeck (t : LegacyStatsFile) (path : String) (deck : Deck) : Deck :=
  match lookupStats t (if deck.slug = "" then getDeckIdFromPath path else deck.slug) with
  | some stats =>
      if stats.views.isSome then
        { deck with
            legacyStats := some
              { stats with capturedAt := (legacyStatsMeta t).bind StatsVal.capturedAt } }
      else deck
  | none => deck

/-- The sort comparator of `getAllDecks`:
`(a, b) => { if (!a.uploadedAt && !b.uploadedAt) return 0;
if (!a.uploadedAt) return 1; if (!b.uploadedAt) return -1;
return new Date(b.uploadedAt).getTime() - new Date(a.uploadedAt).getTime(); }`. -/
def deckCmp (a b : Deck) : Int :=
  match a.uploadedAt, b.uploadedAt with
  | none, none => 0
  | none, some _ => 1
  | some _, none => -1
  | some ta, some tb => tb - ta

/-- The preorder induced by the comparator: `a` may come no later than `b`
exactly when the comparator is non-positive. -/
def deckLe (a b : Deck) : Prop := deckCmp a b ≤ 0

instance : DecidableRel deckLe :=
  fun a b => inferInstanceAs (Decidable (deckCmp a b ≤ 0))

instance : IsTotal Deck deckLe where
  total a b := by
    unfold deckLe deckCmp
    rcases a.uploadedAt with _ | ta <;> rcases b.uploadedAt with _ | tb <;> simp <;> omega

instance : IsTrans Deck deckLe where
  trans a b c := by
    unfold deckLe deckCmp
    rcases a.uploadedAt with _ | ta <;> rcases b.uploadedAt with _ | tb <;>
      rcases c.uploadedAt with _ | tc <;> simp <;> omega

/-- Model of `getAllDecks()`: map every `(path, deck)` module entry through the
legacy-stats enrichment, then sort with the comparator above.
`Array.prototype.sort` is stable, and for this comparator (a total preorder)
the stable sorted result is unique, so insertion sort — which is stable —
computes exactly it. -/
def getAllDecks (t : LegacyStatsFile) (deckModules : List (String × Deck)) : List Deck :=
  List.insertionSort deckLe (deckModules.map (fun pd => enrichDeck t pd.1 pd.2))

/-- Model of `getDeckBySlug`: `getAllDecks().find((deck) => deck.slug === slug)`. -/
def getDeckBySlug (t : LegacyStatsFile) (deckModules : List (String × Deck))
    (slug : String) : Option Deck :=
  (getAllDecks t deckModules).find? (fun deck => deck.slug == slug)

/-- Model of `getDeckByShortId`: `getAllDecks().find((deck) => deck.shortId === shortId)`;
a deck with `shortId` unset compares `undefined === n`, i.e. never matches. -/
def getDeckByShortId (t : LegacyStatsFile) (deckModules : List (String × Deck))
    (shortId : Int) : Option Deck :=
  (getAllDecks t deckModules).find? (fun deck => deck.shortId == some shortId)

/-- Model of `[...new Set(tags)]`: deduplication keeping first occurrences, in
insertion order, as a JS `Set` does. -/
def jsSetDedup (l : List String) : List String :=
  l.foldl (fun acc x => if x ∈ acc then acc else acc ++ [x]) []

/-- Model of `getAllTags`: flatten all decks' tags, deduplicate via `Set`, and `.sort()`
(default lexicographic string order). -/
def getAllTags (t : LegacyStatsFile) (deckModules : List (String × Deck)) : List String :=
  List.insertionSort (· ≤ ·) (jsSetDedup ((getAllDecks t deckModules).flatMap Deck.tags))

/-- Modelled from the spec: "use the record's own `slug` field if present and
non-empty; otherwise fall back to the identifier derived from the record's
storage location (e.g., its filename stem)". -/
def specLookupKey (path : String) (deck : Deck) : String :=
  if deck.slug ≠ "" then deck.slug else getDeckIdFromPath path

/-- Enrichment of a single deck given an already-resolved lookup key: look the
key up in the legacy-stats table and merge when the value is stats-shaped. -/
def enrichAt (t : LegacyStatsFile) (key : String) (deck : Deck) : Deck :=
  match lookupStats t key with
  | some stats =>
      if stats.views.isSome then
        { deck with
            legacyStats := some
              { stats with capturedAt := (legacyStatsMeta t).bind StatsVal.capturedAt } }
      else deck
  | none => deck

/-! ## Helper lemmas -/

theorem enrichDeck_uploadedAt (t : LegacyStatsFile) (path : String) (deck : Deck) :
    (enrichDeck t path deck).uploadedAt = deck.uploadedAt := by
  unfold enrichDeck
  split
  · split <;> rfl
  · rfl

/-- Insertion sort does not disturb the relative order of the elements
satisfying a predicate `p`, provided any two `p`-elements are `deckLe`-related
(the stability of the sort, phrased through `filter`). -/
theorem filter_insertionSort_deckLe (p : Deck → Bool)
    (hp : ∀ a b : Deck, p a → p b → deckLe a b) (l : List Deck) :
    (List.insertionSort deckLe l).filter p = l.filter p := by
  have hpair : (l.filter p).Pairwise deckLe := by
    refine List.pairwise_of_forall_mem_list ?_
    intro a ha b hb
    exact hp a b (List.of_mem_filter ha) (List.of_mem_filter hb)
  have hsub : List.Sublist (l.filter p) (List.insertionSort deckLe l) :=
    List.sublist_insertionSort hpair (List.filter_sublist l)
  have hsub2 : List.Sublist (l.filter p) ((List.insertionSort deckLe l).filter p) := by
    have := hsub.filter p
    rwa [List.filter_filter, List.filter_congr (q := p) (by intro a _; simp [Bool.and_self])]
      at this
  have hlen : ((List.insertionSort deckLe l).filter p).length = (l.filter p).length :=
    ((List.perm_insertionSort deckLe l).filter p).length_eq
  exact (hsub2.eq_of_length hlen.symm).symm

/-! ## Claims -/

/-- C1: For every pair of records `a, b` in the output of
`loadAll()`/`getAllDecks()` where both `a.uploadedAt` and `b.uploadedAt` are
set and `a` appears before `b`, `a.uploadedAt >= b.uploadedAt` as timestamps
(later timestamp sorts first, most recent first). -/
theorem getAllDecks_sorted_uploadedAt_desc (t : LegacyStatsFile)
    (deckModules : List (String × Deck)) :
    (getAllDecks t deckModules).Pairwise
      (fun a b => ∀ ta tb, a.uploadedAt = some ta → b.uploadedAt = some tb → tb ≤ ta) := by
  have h := List.sorted_insertionSort deckLe
      (deckModules.map (fun pd => enrichDeck t pd.1 pd.2))
  unfold List.Sorted at h
  refine h.imp ?_
  intro a b hle ta tb hta htb
  simp only [deckLe, deckCmp, hta, htb] at hle
  omega

/-- C2: In the output of `loadAll()`/`getAllDecks()`, every record with no
`uploadedAt` appears after every record that has one, regardless of input
order, and the sort is stable: any two records with equal sort keys (in
particular two undated records) retain their relative input order.  The
second conjunct expresses stability: for every sort key, the records carrying
that key appear in the output exactly in their input (module) order. -/
theorem getAllDecks_undated_last_and_stable (t : LegacyStatsFile)
    (deckModules : List (String × Deck)) :
    (getAllDecks t deckModules).Pairwise
      (fun a b => a.uploadedAt = none → b.uploadedAt = none)
    ∧ ∀ k : Option Int,
        (getAllDecks t deckModules).filter (fun d => d.uploadedAt == k)
          = (deckModules.filter (fun pd => pd.2.uploadedAt == k)).map
              (fun pd => enrichDeck t pd.1 pd.2) := by
  constructor
  · have h := List.sorted_insertionSort deckLe
        (deckModules.map (fun pd => enrichDeck t pd.1 pd.2))
    unfold List.Sorted at h
    refine h.imp ?_
    intro a b hle ha
    rcases hb : b.uploadedAt with _ | tb
    · rfl
    · simp only [deckLe, deckCmp, ha, hb] at hle
      omega
  · intro k
    have hp : ∀ a b : Deck, (a.uploadedAt == k) → (b.uploadedAt == k) → deckLe a b := by
      intro a b ha hb
      have ha' : a.uploadedAt = k := by simpa using ha
      have hb' : b.uploadedAt = k := by simpa using hb
      rcases k with _ | tk <;> simp only [deckLe, deckCmp, ha', hb'] <;> omega
    rw [getAllDecks, filter_insertionSort_deckLe _ hp, List.filter_map]
    congr 1
    apply List.filter_congr
    intro pd _
    simp [Function.comp, enrichDeck_uploadedAt]

/-- C6: For every input set of records and every legacy-stats table, the
sequence returned by `loadAll()`/`getAllDecks()` has exactly as many records
as the input set: enrichment and sorting never drop or add a record. -/
theorem getAllDecks_length (t : LegacyStatsFile)
    (deckModules : List (String × Deck)) :
    (getAllDecks t deckModules).length = deckModules.length := by
  rw [getAllDecks, List.length_insertionSort, List.length_map]

/-- C3: For every record whose lookup key is found in the legacy-stats table
with a stats-shaped value (having a `views` field), `loadAll()`/`getAllDecks()`
attaches a `legacyStats` object combining the matched counters (`likes`,
`views`, `downloads`, `privacy`) with a `capturedAt` equal to the table's
single shared `_meta.capturedAt` value. -/
theorem getAllDecks_attaches_legacyStats (t : LegacyStatsFile)
    (deckModules : List (String × Deck)) (path : String) (deck : Deck) (e : StatsVal)
    (hmem : (path, deck) ∈ deckModules)
    (hkey : lookupStats t (if deck.slug = "" then getDeckIdFromPath path else deck.slug)
      = some e)
    (hviews : e.views.isSome) :
    { deck with
        legacyStats := some { e with capturedAt := (legacyStatsMeta t).bind StatsVal.capturedAt } }
      ∈ getAllDecks t deckModules := by
  have henrich : enrichDeck t path deck
      = { deck with
            legacyStats := some
              { e with capturedAt := (legacyStatsMeta t).bind StatsVal.capturedAt } } := by
    unfold enrichDeck
    rw [hkey]
    simp [hviews]
  rw [getAllDecks, List.mem_insertionSort]
  exact henrich ▸ List.mem_map_of_mem (fun pd => enrichDeck t pd.1 pd.2) hmem

/-- C4: For every record whose lookup key has no matching entry in the
legacy-stats table, `loadAll()`/`getAllDecks()` returns that record unmodified
(in particular never with zeroed or placeholder stats and with no
`legacyStats` field added), and the missing match never causes an error (the
enrichment is a total function). -/
theorem enrich_missing_match_unmodified (t : LegacyStatsFile) (path : String) (deck : Deck)
    (hnone : lookupStats t (if deck.slug = "" then getDeckIdFromPath path else deck.slug)
      = none) :
    enrichDeck t path deck = deck
    ∧ ∀ deckModules : List (String × Deck),
        (path, deck) ∈ deckModules → deck ∈ getAllDecks t deckModules := by
  have h : enrichDeck t path deck = deck := by
    unfold enrichDeck
    rw [hnone]
  refine ⟨h, ?_⟩
  intro m hmem
  rw [getAllDecks, List.mem_insertionSort]
  exact h ▸ List.mem_map_of_mem (fun pd => enrichDeck t pd.1 pd.2) hmem

/-- C5: For every record, the lookup key used against the legacy-stats table
is the record's own `slug` field when it is present and non-empty; otherwise
it is the filename stem derived from the record's storage path
(`getDeckIdFromPath`).  `specLookupKey` is the spec-side definition; the
enrichment performed by `getAllDecks` equals enrichment at that key. -/
theorem lookupKey_spec (t : LegacyStatsFile) (path : String) (deck : Deck) :
    enrichDeck t path deck = enrichAt t (specLookupKey path deck) deck := by
  unfold enrichDeck enrichAt specLookupKey
  by_cases h : deck.slug = "" <;> simp [h]

/-! ## Concrete inputs for the witnesses -/

/-- A dated demo deck whose slug has a stats entry in `demoTable`. -/
def demoDeckA : Deck :=
  { slug := "a", tags := ["power-platform", "crm"], uploadedAt := some 100 }

/-- An undated demo deck. -/
def demoDeckB : Deck := { slug := "b", uploadedAt := none }

/-- A dated demo deck with a `shortId` and no stats entry. -/
def demoDeckC : Deck :=
  { slug := "c", shortId := some 3, tags := ["crm"], uploadedAt := some 200 }

/-- The stats entry of `demoDeckA` in `demoTable`. -/
def demoEntryA : StatsVal := { likes := some 1, views := some 10, downloads := some 2 }

/-- A demo legacy-stats table with a `_meta` capture timestamp. -/
def demoTable : LegacyStatsFile :=
  [("_meta", { capturedAt := some "2025-06-01T00:00:00Z" }), ("a", demoEntryA)]

/-- Demo deck modules, keyed by their glob paths. -/
def demoModules : List (String × Deck) :=
  [("../content/decks/a.json", demoDeckA), ("../content/decks/b.json", demoDeckB),
   ("../content/decks/c.json", demoDeckC)]

theorem getAllDecks_attaches_legacyStats_witness :
    lookupStats demoTable
        (if demoDeckA.slug = "" then getDeckIdFromPath "../content/decks/a.json"
         else demoDeckA.slug) = some demoEntryA
    ∧ demoEntryA.views.isSome
    ∧ { demoDeckA with
          legacyStats := some
            { demoEntryA with
                capturedAt := (legacyStatsMeta demoTable).bind StatsVal.capturedAt } }
        ∈ getAllDecks demoTable demoModules :=
  ⟨by decide, by decide,
    getAllDecks_attaches_legacyStats demoTable demoModules "../content/decks/a.json"
      demoDeckA demoEntryA (by decide) (by decide) (by decide)⟩

theorem enrich_missing_match_unmodified_witness :
    lookupStats demoTable
        (if demoDeckC.slug = "" then getDeckIdFromPath "../content/decks/c.json"
         else demoDeckC.slug) = none
    ∧ enrichDeck demoTable "../content/decks/c.json" demoDeckC = demoDeckC
    ∧ demoDeckC ∈ getAllDecks demoTable demoModules := by
  have h := enrich_missing_match_unmodified demoTable "../content/decks/c.json" demoDeckC
    (by decide)
  exact ⟨by decide, h.1, h.2 demoModules (by decide)⟩

/-- In a list of decks with pairwise-distinct slugs, `find?` by slug finds
exactly the member carrying that slug. -/
theorem find_slug_unique {s : String} :
    ∀ {l : List Deck}, l.Pairwise (fun a b => a.slug ≠ b.slug) →
      ∀ d : Deck, (l.find? (fun x => x.slug == s) = some d ↔ d ∈ l ∧ d.slug = s) := by
  intro l
  induction l with
  | nil => intro _ d; simp
  | cons a l ih =>
    intro hp d
    rw [List.pairwise_cons] at hp
    obtain ⟨ha, hp'⟩ := hp
    by_cases hs : a.slug = s
    · rw [List.find?_cons_of_pos _ (by simp [hs])]
      constructor
      · intro h
        injection h with h
        subst h
        exact ⟨List.mem_cons_self a l, hs⟩
      · rintro ⟨hmem, hds⟩
        rcases List.mem_cons.mp hmem with rfl | hmem'
        · rfl
        · exact absurd (hs.trans hds.symm) (ha d hmem')
    · rw [List.find?_cons_of_neg _ (by simp [hs])]
      rw [ih hp' d]
      constructor
      · rintro ⟨hmem, hds⟩
        exact ⟨List.mem_cons_of_mem _ hmem, hds⟩
      · rintro ⟨hmem, hds⟩
        rcases List.mem_cons.mp hmem with rfl | hmem'
        · exact absurd hds hs
        · exact ⟨hmem', hds⟩

/-- C7: For every catalog whose records have unique slugs and every string
`s`, `findBySlug(s)`/`getDeckBySlug(s)` returns the unique record whose slug
is exactly equal to `s`, and returns absent when no record's slug equals
`s`. -/
theorem getDeckBySlug_unique (t : LegacyStatsFile) (deckModules : List (String × Deck))
    (s : String)
    (huniq : (getAllDecks t deckModules).Pairwise (fun a b => a.slug ≠ b.slug)) :
    (∀ d : Deck, getDeckBySlug t deckModules s = some d
        ↔ d ∈ getAllDecks t deckModules ∧ d.slug = s)
    ∧ (getDeckBySlug t deckModules s = none
        ↔ ∀ d ∈ getAllDecks t deckModules, d.slug ≠ s) := by
  constructor
  · intro d
    rw [getDeckBySlug]
    exact find_slug_unique huniq d
  · rw [getDeckBySlug, List.find?_eq_none]
    constructor
    · intro h d hmem hds
      exact h d hmem (by simp [hds])
    · intro h d hmem
      simpa using h d hmem

theorem getDeckBySlug_unique_witness :
    (getAllDecks demoTable demoModules).Pairwise (fun a b => a.slug ≠ b.slug)
    ∧ getDeckBySlug demoTable demoModules "b" = some demoDeckB := by
  have hu : (getAllDecks demoTable demoModules).Pairwise (fun a b => a.slug ≠ b.slug) := by
    decide
  exact ⟨hu,
    ((getDeckBySlug_unique demoTable demoModules "b" hu).1 demoDeckB).mpr ⟨by decide, rfl⟩⟩

/-- C8: For every integer `n`, `findByShortId(n)`/`getDeckByShortId(n)`
returns absent when no record in the catalog has `shortId` equal to `n`; and
any record it does return has `shortId = n`, so in particular a record whose
`shortId` is unset is never returned for any `n`. -/
theorem getDeckByShortId_absent (t : LegacyStatsFile) (deckModules : List (String × Deck))
    (n : Int) :
    ((∀ d ∈ getAllDecks t deckModules, d.shortId ≠ some n)
        → getDeckByShortId t deckModules n = none)
    ∧ ∀ d : Deck, getDeckByShortId t deckModules n = some d → d.shortId = some n := by
  constructor
  · intro h
    rw [getDeckByShortId, List.find?_eq_none]
    intro x hx
    simpa using h x hx
  · intro d h
    rw [getDeckByShortId] at h
    have := List.find?_some h
    simpa using this

theorem getDeckByShortId_absent_witness :
    (∀ d ∈ getAllDecks demoTable demoModules, d.shortId ≠ some 5)
    ∧ getDeckByShortId demoTable demoModules 5 = none :=
  ⟨by decide, (getDeckByShortId_absent demoTable demoModules 5).1 (by decide)⟩

/-- Membership in the `Set`-based deduplication is membership in the
original list (generalized over the fold accumulator). -/
theorem mem_jsSetDedup_aux (l : List String) :
    ∀ (acc : List String) (s : String),
      s ∈ l.foldl (fun acc x => if x ∈ acc then acc else acc ++ [x]) acc
        ↔ s ∈ acc ∨ s ∈ l := by
  induction l with
  | nil => intro acc s; simp
  | cons a l ih =>
    intro acc s
    rw [List.foldl_cons, ih]
    by_cases h : a ∈ acc
    · simp only [if_pos h, List.mem_cons]
      constructor
      · rintro (hs | hs)
        · exact Or.inl hs
        · exact Or.inr (Or.inr hs)
      · rintro (hs | rfl | hs)
        · exact Or.inl hs
        · exact Or.inl h
        · exact Or.inr hs
    · simp only [if_neg h, List.mem_append, List.mem_singleton, List.mem_cons]
      tauto

/-- The `Set`-based deduplication produces no duplicates (generalized over
the fold accumulator). -/
theorem nodup_jsSetDedup_aux (l : List String) :
    ∀ acc : List String, acc.Nodup →
      (l.foldl (fun acc x => if x ∈ acc then acc else acc ++ [x]) acc).Nodup := by
  induction l with
  | nil => intro acc h; simpa using h
  | cons a l ih =>
    intro acc h
    rw [List.foldl_cons]
    by_cases hmem : a ∈ acc
    · rw [if_pos hmem]
      exact ih acc h
    · rw [if_neg hmem]
      refine ih _ ?_
      simp [List.nodup_append, h, hmem]

theorem mem_jsSetDedup (l : List String) (s : String) : s ∈ jsSetDedup l ↔ s ∈ l := by
  rw [jsSetDedup, mem_jsSetDedup_aux]
  simp

theorem nodup_jsSetDedup (l : List String) : (jsSetDedup l).Nodup :=
  nodup_jsSetDedup_aux l [] List.nodup_nil

/-- C9: For every catalog, `allTags()`/`getAllTags()` returns a sequence
sorted lexicographically ascending, containing no duplicates, whose
underlying set equals the union of the `tags` sequences of all records in the
catalog. -/
theorem getAllTags_sorted_nodup_union (t : LegacyStatsFile)
    (deckModules : List (String × Deck)) :
    (getAllTags t deckModules).Sorted (· ≤ ·)
    ∧ (getAllTags t deckModules).Nodup
    ∧ ∀ s : String, s ∈ getAllTags t deckModules
        ↔ ∃ d ∈ getAllDecks t deckModules, s ∈ d.tags := by
  refine ⟨List.sorted_insertionSort _ _, ?_, ?_⟩
  · rw [getAllTags]
    exact ((List.perm_insertionSort _ _).nodup_iff).mpr (nodup_jsSetDedup _)
  · intro s
    rw [getAllTags, List.mem_insertionSort, mem_jsSetDedup, List.mem_flatMap]

/-- C10: When two or more records share the same slug (or the same
`shortId`), `getDeckBySlug` (resp. `getDeckByShortId`) silently returns the
first matching record in the sorted catalog order — the matching record that
sorts most recent — with no diagnostic or error for the duplicate key (both
lookups are total functions with no failure branch). -/
theorem lookup_first_match_in_sorted_order (t : LegacyStatsFile)
    (deckModules : List (String × Deck)) (s : String) (n : Int)
    (l₁ l₂ l₃ l₄ : List Deck) (d d' : Deck) :
    (getAllDecks t deckModules = l₁ ++ d :: l₂ → d.slug = s → (∀ e ∈ l₁, e.slug ≠ s) →
        getDeckBySlug t deckModules s = some d)
    ∧ (getAllDecks t deckModules = l₃ ++ d' :: l₄ → d'.shortId = some n →
        (∀ e ∈ l₃, e.shortId ≠ some n) → getDeckByShortId t deckModules n = some d') := by
  constructor
  · intro hcat hds hnone
    rw [getDeckBySlug, hcat, List.find?_append]
    have h1 : l₁.find? (fun x => x.slug == s) = none := by
      rw [List.find?_eq_none]
      intro x hx
      simpa using hnone x hx
    rw [h1, List.find?_cons_of_pos _ (by simp [hds])]
    rfl
  · intro hcat hds hnone
    rw [getDeckByShortId, hcat, List.find?_append]
    have h1 : l₃.find? (fun x => x.shortId == some n) = none := by
      rw [List.find?_eq_none]
      intro x hx
      simpa using hnone x hx
    rw [h1, List.find?_cons_of_pos _ (by simp [hds])]
    rfl

/-- An older deck sharing slug and `shortId` with `dupNewDeck`. -/
def dupOldDeck : Deck := { slug := "dup", shortId := some 7, uploadedAt := some 50 }

/-- A newer deck sharing slug and `shortId` with `dupOldDeck`. -/
def dupNewDeck : Deck := { slug := "dup", shortId := some 7, uploadedAt := some 150 }

/-- Modules with a duplicated slug and `shortId`, older record first. -/
def dupModules : List (String × Deck) :=
  [("../content/decks/dup-old.json", dupOldDeck),
   ("../content/decks/dup-new.json", dupNewDeck)]

theorem lookup_first_match_in_sorted_order_witness :
    getAllDecks [] dupModules = [] ++ dupNewDeck :: [dupOldDeck]
    ∧ getDeckBySlug [] dupModules "dup" = some dupNewDeck
    ∧ getDeckByShortId [] dupModules 7 = some dupNewDeck := by
  have h := lookup_first_match_in_sorted_order [] dupModules "dup" 7 [] [dupOldDeck]
    [] [dupOldDeck] dupNewDeck dupNewDeck
  exact ⟨by decide, h.1 (by decide) rfl (by decide), h.2 (by decide) rfl (by decide)⟩

end ShareSlides
